import Mathlib

/-!
Verification of the traffic-simulation post-processing pipeline.

Shallow embedding of the core pipeline functions:
* `traffic_sim_module/pipeline/xml_to_parquet.py` (`filter_events_chunk`),
* `traffic_sim_module/pipeline/parquet_to_animation.py`
  (`time_to_timestamp`, `interpolate_trajectory`, `get_neighboring_links`,
  `get_edge_coords`, `get_travel_endpoints`),
* `traffic_sim_module/processing/interpolation.py` (`interpolate_1s`),
* `traffic_sim_module/processing/geometry.py` (`cal_arith_angle`),
* `traffic_sim_module/pipeline/parquet_to_heatmap.py` (`process_timepoint_batch`),
* `traffic_sim_module/utils/network_cache.py` (`is_cache_valid`,
  `load_network_cached`, the travel-endpoint precomputation inside
  `build_link_attributes_dict`),
together with theorems settling the behavioural claims about them.

Modelling conventions: Python ints are `Int`; coordinate values are kept either
abstract (only equality tests occur on them in the endpoint-resolution code) or
as `ℚ` where linear arithmetic occurs; the bearing formula, which is genuinely
real-valued (trigonometry), is modelled over `ℝ`.  An attribute read through
`dict.get` is an `Option`.  A function that can raise an uncaught exception is
given an `Option` result, `none` for the raising paths.
-/

namespace TrafficSim

/-! ### Timestamp rendering

`time_to_timestamp` (identical in `parquet_to_animation.py` and
`parquet_to_heatmap.py`): `datetime(2024, 1, 1) + timedelta(seconds=int(s))`
formatted as `%Y/%m/%d %H:%M:%S`.  The Gregorian-date computation below is the
standard civil-from-days algorithm; 19723 is the number of days from 1970-01-01
to 2024-01-01. -/

def pad2 (n : Nat) : String :=
  if n < 10 then ("0" ++ toString n) else toString n

def pad4 (n : Nat) : String :=
  if n < 10 then ("000" ++ toString n)
  else if n < 100 then ("00" ++ toString n)
  else if n < 1000 then ("0" ++ toString n)
  else toString n

/-- Convert a count of days since 1970-01-01 to a civil `(year, month, day)`. -/
def civilFromDays (z0 : Int) : Int × Nat × Nat :=
  let z := z0 + 719468
  let era : Int := z.fdiv 146097
  let doe : Nat := (z - era * 146097).toNat
  let yoe : Nat := (doe - doe / 1460 + doe / 36524 - doe / 146096) / 365
  let y : Int := (yoe : Int) + era * 400
  let doy : Nat := doe - (365 * yoe + yoe / 4 - yoe / 100)
  let mp : Nat := (5 * doy + 2) / 153
  let d : Nat := doy - (153 * mp + 2) / 5 + 1
  let m : Nat := if mp < 10 then mp + 3 else mp - 9
  (y + (if m ≤ 2 then 1 else 0), m, d)

/-- Model of `time_to_timestamp(seconds)`: seconds offset from the fixed epoch
2024-01-01 00:00:00, rendered `YYYY/MM/DD HH:MM:SS`. -/
def timeToTimestamp (seconds : Int) : String :=
  let total := 19723 * 86400 + seconds
  let days := total.fdiv 86400
  let sod := (total.emod 86400).toNat
  let ymd := civilFromDays days
  pad4 ymd.1.toNat ++ "/" ++ pad2 ymd.2.1 ++ "/" ++ pad2 ymd.2.2 ++ " " ++
    pad2 (sod / 3600) ++ ":" ++ pad2 (sod % 3600 / 60) ++ ":" ++ pad2 (sod % 60)

/-! ### Stage 1: `filter_events_chunk` (xml_to_parquet.py)

An XML event record.  Attributes read with `event.get(...)` are `Option`s.
The `time` attribute is stored already parsed: `none` stands for a missing,
empty, or non-integer `time` string, i.e. for every record on which the Python
code executes `continue` in its time-parsing guard (`if not time_str` /
`int` raising `ValueError`). -/

structure Ev where
  type : Option String
  person : Option String
  link : Option String
  time : Option Int
deriving DecidableEq

def enterLinkTag : String := "EnterLink"

def leaveLinkTag : String := "LeaveLink"

/-- An emitted intermediate record (the dict appended to `filtered_records`;
the constant `event_type: 'trip'` field is omitted). -/
structure Traversal where
  person : Option String
  link_id : Option String
  time_enter : Int
  time_leave : Int
  interval_id : Nat
deriving DecidableEq

/-- The interval-selection loop: first `(idx, (start, end))` in configured
order with `interval_start <= time_enter <= interval_end`. -/
def findInterval : List (Int × Int) → Int → Option (Nat × Int × Int)
  | [], _ => none
  | (s, e) :: rest, t =>
    if s ≤ t ∧ t ≤ e then some (0, s, e)
    else (findInterval rest t).map fun p => (p.1 + 1, p.2)

/-- `link_id in valid_links` where `link_id` may be `None` (never a member of a
set of strings). -/
def optMem (l : Option String) (valid : List String) : Bool :=
  match l with
  | some s => valid.contains s
  | none => false

/-- The emission decision on a matched EnterLink/LeaveLink pair
(`xml_to_parquet.py` lines 155-182): select the first interval containing
`time_enter`; require the link in the spatial domain; clip `time_leave` to the
interval end. -/
def processLeave (valid : List String) (intervals : List (Int × Int))
    (person link : Option String) (tEnter tLeave : Int) : Option Traversal :=
  match findInterval intervals tEnter with
  | none => none
  | some (idx, _s, e) =>
    if optMem link valid then
      some ⟨person, link, tEnter, if tLeave > e then e else tLeave, idx⟩
    else none

/-- Key of the `enter_events` dict: `(person, link_id)`, both possibly `None`. -/
abbrev EKey := Option String × Option String

/-- `enter_events` as an association list mapping each key to the stored
EnterLink's (already parsed) time — the only attribute later read from the
stored event. -/
def findEnter (m : List (EKey × Int)) (k : EKey) : Option Int :=
  match m.find? (fun p => decide (p.1 = k)) with
  | some p => some p.2
  | none => none

def eraseEnter (m : List (EKey × Int)) (k : EKey) : List (EKey × Int) :=
  m.filter fun p => decide (p.1 ≠ k)

def insertEnter (m : List (EKey × Int)) (k : EKey) (t : Int) : List (EKey × Int) :=
  (k, t) :: eraseEnter m k

structure FState where
  enters : List (EKey × Int)
  records : List Traversal
deriving DecidableEq

/-- One iteration of the event loop of `filter_events_chunk`: skip events with
no usable `time`; store EnterLinks keyed by `(person, link)` (overwriting);
on a LeaveLink whose key is stored, pop it and append the result of the
emission decision. -/
def stepEvent (valid : List String) (intervals : List (Int × Int))
    (st : FState) (ev : Ev) : FState :=
  match ev.time with
  | none => st
  | some t =>
    if ev.type = some enterLinkTag then
      { st with enters := insertEnter st.enters (ev.person, ev.link) t }
    else if ev.type = some leaveLinkTag then
      match findEnter st.enters (ev.person, ev.link) with
      | none => st
      | some tEnter =>
        { enters := eraseEnter st.enters (ev.person, ev.link),
          records := st.records ++
            (processLeave valid intervals ev.person ev.link tEnter t).toList }
    else st

/-- Model of `filter_events_chunk(args)`: fold the event loop over the chunk
and return the accumulated `filtered_records`. -/
def filterEventsChunk (valid : List String) (chunk : List Ev)
    (intervals : List (Int × Int)) : List Traversal :=
  (chunk.foldl (stepEvent valid intervals) ⟨[], []⟩).records

/-! ### The bearing formula (`cal_arith_angle`, geometry.py lines 25-51)

The same formula appears verbatim inside `build_link_attributes_dict`
(network_cache.py lines 295-300) and as `calculate_bearing`
(parquet_to_animation.py lines 110-139).  It is genuinely real-valued, so it
is modelled over `ℝ`. -/

/-- `math.radians`. -/
noncomputable def radians (d : ℝ) : ℝ := d * Real.pi / 180

/-- `math.atan2(a, b)`: the angle in `(-π, π]` of the point `(b, a)`. -/
noncomputable def atan2 (a b : ℝ) : ℝ :=
  if 0 < b then Real.arctan (a / b)
  else if b < 0 then
    (if 0 ≤ a then Real.arctan (a / b) + Real.pi
     else Real.arctan (a / b) - Real.pi)
  else
    (if 0 < a then Real.pi / 2 else if a < 0 then -(Real.pi / 2) else 0)

/-- Python's float `%` for a positive modulus: `a - b * floor(a / b)`. -/
noncomputable def fmod (a b : ℝ) : ℝ := a - b * ⌊a / b⌋

/-- Model of `cal_arith_angle(start_coords, end_coords)`: the coordinate pairs
are taken in `(latitude, longitude)` order, converted to radians, fed to the
spherical forward-azimuth formula, normalised by `(deg + 360) % 360` and
rounded to the nearest integer. -/
noncomputable def calArithAngle (startCoords endCoords : ℝ × ℝ) : ℤ :=
  let lat1 := radians startCoords.1
  let lon1 := radians startCoords.2
  let lat2 := radians endCoords.1
  let lon2 := radians endCoords.2
  let deltaLon := lon2 - lon1
  let x := Real.cos lat2 * Real.sin deltaLon
  let y := Real.cos lat1 * Real.sin lat2 -
    Real.sin lat1 * Real.cos lat2 * Real.cos deltaLon
  let angleDegrees := atan2 x y * 180 / Real.pi
  round (fmod (angleDegrees + 360) 360)

/-! ### Stage 2: trajectory interpolation

`interpolate_trajectory` (parquet_to_animation.py lines 270-324) and
`interpolate_1s` (interpolation.py lines 13-77).  Coordinates are modelled as
`ℚ`; `round(v, d)` on them as rounding of `v * 10^d` to the nearest integer. -/

/-- `round(v, 12)`. -/
def round12 (v : ℚ) : ℚ := (round (v * 10 ^ 12) : ℚ) / 10 ^ 12

/-- `round(v, 1)`. -/
def round1 (v : ℚ) : ℚ := (round (v * 10) : ℚ) / 10

/-- A GeoJSON feature emitted by `interpolate_trajectory` (geometry coordinates
plus the four properties). -/
structure TrajFeature where
  x : ℚ
  y : ℚ
  timestamp : String
  angle : Int
  person_id : String
  interval_id : Int
deriving DecidableEq

/-- Model of `interpolate_trajectory(...)`: empty when `time_delta <= 0`,
otherwise one feature for each `t in range(time_delta + 1)`.  The `freespeed`
and `link_length` arguments are accepted and unused, as in the source. -/
def interpolateTrajectory (_linkId : String) (timeEnter timeLeave : Int)
    (startCoords endCoords : ℚ × ℚ) (personId : String)
    (_freespeed _linkLength : Option ℚ) (bearing : Int) (intervalId : Int) :
    List TrajFeature :=
  let timeDelta := timeLeave - timeEnter
  if timeDelta ≤ 0 then []
  else
    (List.range (timeDelta.toNat + 1)).map fun (t : Nat) =>
      let fraction : ℚ := (t : ℚ) / (timeDelta : ℚ)
      { x := round12 (startCoords.1 + fraction * (endCoords.1 - startCoords.1)),
        y := round12 (startCoords.2 + fraction * (endCoords.2 - startCoords.2)),
        timestamp := timeToTimestamp (timeEnter + (t : Int)),
        angle := bearing,
        person_id := personId,
        interval_id := intervalId }

/-- A feature emitted by `interpolate_1s` (properties `t`, `a`, `id`, and the
optional `s`). -/
structure Traj1sFeature where
  x : ℚ
  y : ℚ
  t : String
  a : Int
  id : String
  s : Option ℚ

/-- Model of `interpolate_1s(...)`: the angle comes from `cal_arith_angle`;
`range(0, time_delta + 1)` iterates `max 0 (time_delta + 1)` times, hence the
`Int.toNat` clamp; `fraction` is `t / time_delta` when `time_delta > 0`, else
`0`. -/
noncomputable def interpolate1s (_linkId : String) (startTime endTime : Int)
    (travelStart travelEnd : ℚ × ℚ) (personId : String)
    (freespeed linkLength : Option ℚ) : List Traj1sFeature :=
  let timeDelta := endTime - startTime
  let angle := calArithAngle ((travelStart.1 : ℝ), (travelStart.2 : ℝ))
    ((travelEnd.1 : ℝ), (travelEnd.2 : ℝ))
  let speedFraction : Option ℚ :=
    match freespeed, linkLength with
    | some fsp, some ll =>
      if 0 < timeDelta then some (round1 ((ll / (timeDelta : ℚ)) / fsp)) else none
    | _, _ => none
  (List.range (timeDelta + 1).toNat).map fun (t : Nat) =>
    let fraction : ℚ := if 0 < timeDelta then (t : ℚ) / (timeDelta : ℚ) else 0
    { x := round12 (travelStart.1 + fraction * (travelEnd.1 - travelStart.1)),
      y := round12 (travelStart.2 + fraction * (travelEnd.2 - travelStart.2)),
      t := timeToTimestamp (startTime + (t : Int)),
      a := angle,
      id := personId,
      s := speedFraction }

/-! ### Stage 3: `process_timepoint_batch` (parquet_to_heatmap.py lines 89-153) -/

/-- A row of the intermediate traversal table as read by the heatmap stage. -/
structure TravRow where
  person : String
  link_id : String
  time_enter : Int
  time_leave : Int
  interval_id : Int
deriving DecidableEq

/-- The only attribute of `link_attrs` the heatmap stage reads: the
precomputed `center` (may be absent). -/
structure HLinkAttr where
  center : Option (ℚ × ℚ)
deriving DecidableEq

/-- A heatmap record (`link_id, x, y, timestamp, timepoint_seconds,
vehicle_count`). -/
structure HeatRec where
  link_id : String
  x : ℚ
  y : ℚ
  timestamp : String
  timepoint_seconds : Int
  vehicle_count : Nat
deriving DecidableEq

def lookupHAttr (attrs : List (String × HLinkAttr)) (k : String) :
    Option HLinkAttr :=
  match attrs.find? (fun p => decide (p.1 = k)) with
  | some p => some p.2
  | none => none

/-- The heatmap records produced for a single timepoint `t`: filter the rows
with `time_enter <= t` and `time_leave > t`, count them per link, and emit one
record per counted link that is present in `link_attrs` with a center. -/
def heatRecsAt (t : Int) (df : List TravRow)
    (linkAttrs : List (String × HLinkAttr)) : List HeatRec :=
  let active := df.filter fun r => decide (r.time_enter ≤ t) && decide (t < r.time_leave)
  let ids := (active.map (·.link_id)).dedup
  (ids.map fun l => (l, active.countP (fun r => decide (r.link_id = l)))).filterMap
    fun p =>
      match lookupHAttr linkAttrs p.1 with
      | none => none
      | some a =>
        match a.center with
        | none => none
        | some c => some ⟨p.1, c.1, c.2, timeToTimestamp t, t, p.2⟩

/-- Model of `process_timepoint_batch(timepoints, df, link_attrs)`. -/
def processTimepointBatch (timepoints : List Int) (df : List TravRow)
    (linkAttrs : List (String × HLinkAttr)) : List HeatRec :=
  ((timepoints.map fun t => heatRecsAt t df linkAttrs)).flatten

/-! ### Network cache (`network_cache.py` lines 34-170)

The filesystem state relevant to `is_cache_valid` / `load_network_cached`: the
source file (which `load_network_cached` assumes present — `stat` would raise
otherwise) and an optional cache file.  Files carry an mtime (a float in
Python, here `ℚ`) and abstract content.  `create_network_cache` writes the
cache with content derived from the source by the read/reproject/WKB-encode
pipeline, abstracted as a function `build`, and stamps it with the current
time `now`. -/

structure CFile (γ : Type) where
  mtime : ℚ
  content : γ
deriving DecidableEq

structure FileSys (β γ : Type) where
  source : CFile β
  cache : Option (CFile γ)
deriving DecidableEq

/-- Model of `is_cache_valid(gpkg_path, cache_path)`: the cache file exists and
`cache_mtime >= gpkg_mtime`. -/
def isCacheValid {β γ : Type} (fs : FileSys β γ) : Bool :=
  match fs.cache with
  | none => false
  | some c => decide (fs.source.mtime ≤ c.mtime)

/-- Model of `create_network_cache`: overwrite the cache file with content
built from the authoritative source, stamped `now`. -/
def createNetworkCache {β γ : Type} (build : β → γ) (now : ℚ)
    (fs : FileSys β γ) : FileSys β γ :=
  { fs with cache := some ⟨now, build fs.source.content⟩ }

/-- Model of `load_network_from_cache`: decode the cache file (`none` if it is
absent — the Python read would raise). -/
def loadNetworkFromCache {β γ : Type} (fs : FileSys β γ) : Option γ :=
  fs.cache.map (·.content)

/-- Model of `load_network_cached(gpkg_path, force_refresh)`.  Returns the
final filesystem state, whether the cache was (re)built, and the loaded
result. -/
def loadNetworkCached {β γ : Type} (build : β → γ) (now : ℚ)
    (forceRefresh : Bool) (fs : FileSys β γ) : FileSys β γ × Bool × Option γ :=
  if forceRefresh || !(isCacheValid fs) then
    let fs2 := createNetworkCache build now fs
    (fs2, true, loadNetworkFromCache fs2)
  else
    (fs, false, loadNetworkFromCache fs)

/-! ### Link geometry and travel-endpoint resolution

Geometries are LineStrings, MultiLineStrings, or something else (`other`);
coordinates are an arbitrary type with decidable equality, since the
endpoint-resolution code only ever compares them. -/

inductive Geom (α : Type) where
  | line (coords : List α)
  | multi (chains : List (List α))
  | other
deriving DecidableEq

/-- Extraction of the current link's edge coordinates (`coords[0]` /
`coords[-1]` for a LineString, first coordinate of the first chain and last of
the last chain for a MultiLineString): `none` models both the unsupported
geometry type and the empty-geometry `IndexError` paths, on which the callers
skip the link (network_cache.py lines 238-251) or raise
(parquet_to_animation.py lines 237-244). -/
def edgeCoords {α : Type} : Geom α → Option (α × α)
  | .line cs =>
    match cs.head?, cs.getLast? with
    | some a, some b => some (a, b)
    | _, _ => none
  | .multi css =>
    match css.head?.bind List.head?, css.getLast?.bind List.getLast? with
    | some a, some b => some (a, b)
    | _, _ => none
  | .other => none

/-- Neighbour endpoint extraction in `build_link_attributes_dict`
(network_cache.py lines 272-288): a missing or empty (falsy) geometry falls
back to the current link's own edge coordinate; a usable LineString yields
`coords[0]` and `coords[-1]`; `.coords` on a non-empty MultiLineString or
another geometry type raises (`none`). -/
def neighborEndpoints {α : Type} (g : Option (Geom α)) (fallback : α) :
    Option (α × α) :=
  match g with
  | none => some (fallback, fallback)
  | some (.line []) => some (fallback, fallback)
  | some (.line (c :: cs)) => some (c, (c :: cs).getLastD c)
  | some (.multi []) => some (fallback, fallback)
  | some (.multi (_ :: _)) => none
  | some .other => none

/-- The per-link travel-endpoint precomputation of
`build_link_attributes_dict` (network_cache.py lines 229-292), for one link,
given its geometry attribute and the outcome of neighbour resolution:
`prevGeom = none` when no previous link was found (or the found id was falsy /
absent from `link_attrs`), `prevGeom = some g` when one was found with
geometry attribute `g`; likewise `nextGeom`.  Result `none` covers both the
`continue`-skipped links and the raising neighbour-geometry accesses. -/
def precomputeTravel {α : Type} [DecidableEq α] (geom : Option (Geom α))
    (prevGeom nextGeom : Option (Option (Geom α))) : Option (α × α) :=
  match geom with
  | none => none
  | some g =>
    match edgeCoords g with
    | none => none
    | some (ec1, ec2) =>
      let efPair := match prevGeom with
        | none => some (ec1, ec1)
        | some pg => neighborEndpoints pg ec1
      let etPair := match nextGeom with
        | none => some (ec2, ec2)
        | some ng => neighborEndpoints ng ec2
      match efPair, etPair with
      | some (ef1, ef2), some (et1, et2) =>
        some ((if ec1 = ef1 then ef1 else if ec1 = ef2 then ef2 else ec1),
              (if ec2 = et1 then et1 else if ec2 = et2 then et2 else ec2))
      | _, _ => none

/-- The spec's endpoint-selection rule (spec §4.2 steps 4-5), stated from its
words for comparison with the code: the stored value is whichever of the
neighbour's two endpoints equals the link's own edge point, falling back to
the edge point when neither does or when the neighbour contributes no
endpoints. -/
def specEndpointChoice {α : Type} (edgePt : α) (nbrEnds : Option (α × α))
    (v : α) : Prop :=
  match nbrEnds with
  | none => v = edgePt
  | some (p1, p2) =>
    (p1 = edgePt ∧ v = p1) ∨ (p2 = edgePt ∧ v = p2) ∨
      (p1 ≠ edgePt ∧ p2 ≠ edgePt ∧ v = edgePt)

/-- The endpoints a resolved neighbour contributes in
`build_link_attributes_dict`: only a non-empty LineString geometry yields
`(coords[0], coords[-1])`. -/
def lineEnds {α : Type} : Option (Option (Geom α)) → Option (α × α)
  | some (some (.line (c :: cs))) => some (c, (c :: cs).getLastD c)
  | _ => none

/-! ### `get_travel_endpoints` (parquet_to_animation.py lines 142-267)

The fallback endpoint resolver used when precomputed endpoints are absent.
`link_attrs` maps link ids to `from` / `to` node attributes and a geometry. -/

structure AnimAttr (α : Type) where
  fromNode : Option String
  toNode : Option String
  geometry : Option (Geom α)
deriving DecidableEq

def lookupAAttr {α : Type} (attrs : List (String × AnimAttr α)) (k : String) :
    Option (AnimAttr α) :=
  match attrs.find? (fun p => decide (p.1 = k)) with
  | some p => some p.2
  | none => none

/-- One iteration of the scan in `get_neighboring_links`: a link whose
`to == from_node` and `from != to_node` becomes the previous link if none was
recorded yet; otherwise (elif) one whose `from == to_node` and
`to != from_node` becomes the next link if none was recorded yet. -/
def gnlStep (fromNode toNode : Option String)
    (st : Option String × Option String) (p : String × AnimAttr α) :
    Option String × Option String :=
  if p.2.toNode = fromNode ∧ p.2.fromNode ≠ toNode then
    (if st.1 = none then (some p.1, st.2) else st)
  else if p.2.fromNode = toNode ∧ p.2.toNode ≠ fromNode then
    (if st.2 = none then (st.1, some p.1) else st)
  else st

/-- Model of `get_neighboring_links(from_node, to_node, link_attrs)`. -/
def getNeighboringLinks {α : Type} (fromNode toNode : Option String)
    (attrs : List (String × AnimAttr α)) : Option String × Option String :=
  attrs.foldl (gnlStep fromNode toNode) (none, none)

/-- Model of `get_edge_coords(link_id, link_attrs, fallback)`: every failing
path (no id, unknown id, missing geometry, unsupported type, empty geometry)
returns `(fallback, fallback)`. -/
def getEdgeCoords {α : Type} (linkId : Option String)
    (attrs : List (String × AnimAttr α)) (fallback : α) : α × α :=
  match linkId with
  | none => (fallback, fallback)
  | some lid =>
    match lookupAAttr attrs lid with
    | none => (fallback, fallback)
    | some a =>
      match a.geometry with
      | none => (fallback, fallback)
      | some g =>
        match edgeCoords g with
        | some pr => pr
        | none => (fallback, fallback)

/-- Model of `get_travel_endpoints(link_id, link_attrs)` (lines 207-267).
The outer `Option` is `none` on the raising paths (unknown link id, missing
geometry, unsupported geometry type, empty geometry); the components start as
Python `None` and are assigned by the two direction-determination blocks, so
each is an `Option α`. -/
def getTravelEndpoints {α : Type} [DecidableEq α] (linkId : String)
    (attrs : List (String × AnimAttr α)) : Option (Option α × Option α) :=
  match lookupAAttr attrs linkId with
  | none => none
  | some a =>
    let nbrs := getNeighboringLinks a.fromNode a.toNode attrs
    match a.geometry with
    | none => none
    | some g =>
      match edgeCoords g with
      | none => none
      | some (ec1, ec2) =>
        let ef := getEdgeCoords nbrs.1 attrs ec1
        let et := getEdgeCoords nbrs.2 attrs ec2
        let st1 : Option α × Option α :=
          if ec1 = ef.1 ∨ ec1 = ef.2 then
            (some (if ec1 = ef.1 then ef.1 else ef.2), none)
          else if ec1 = et.1 ∨ ec1 = et.2 then
            (none, some (if ec1 = et.1 then et.1 else et.2))
          else (some ec1, none)
        let st2 : Option α × Option α :=
          if ec2 = ef.1 ∨ ec2 = ef.2 then
            (some (if ec2 = ef.1 then ef.1 else ef.2), st1.2)
          else if ec2 = et.1 ∨ ec2 = et.2 then
            (st1.1, some (if ec2 = et.1 then et.1 else et.2))
          else (st1.1, some ec2)
        some st2

/-! ## Helper lemmas about the stage-1 filter -/

theorem findInterval_eq_some : ∀ (ints : List (Int × Int)) (t : Int) (i : Nat)
    (s e : Int), findInterval ints t = some (i, s, e) →
    ints[i]? = some (s, e) ∧ s ≤ t ∧ t ≤ e ∧
      ∀ j, j < i → ∀ w, ints[j]? = some w → ¬(w.1 ≤ t ∧ t ≤ w.2) := by
  intro ints
  induction ints with
  | nil => intro t i s e h; simp [findInterval] at h
  | cons hd tl ih =>
    intro t i s e h
    obtain ⟨s0, e0⟩ := hd
    by_cases hc : s0 ≤ t ∧ t ≤ e0
    · rw [findInterval, if_pos hc] at h
      obtain ⟨rfl, rfl, rfl⟩ : 0 = i ∧ s0 = s ∧ e0 = e := by
        simpa using h
      refine ⟨by simp, hc.1, hc.2, ?_⟩
      intro j hj
      omega
    · rw [findInterval, if_neg hc] at h
      cases hfi : findInterval tl t with
      | none => rw [hfi] at h; simp at h
      | some p =>
        obtain ⟨i1, s1, e1⟩ := p
        rw [hfi] at h
        obtain ⟨rfl, rfl, rfl⟩ : i1 + 1 = i ∧ s1 = s ∧ e1 = e := by
          simpa using h
        obtain ⟨hget, hs, he, hmin⟩ := ih t i1 s1 e1 hfi
        refine ⟨by simpa using hget, hs, he, ?_⟩
        intro j hj w hw
        cases j with
        | zero => simp at hw; rw [← hw]; exact hc
        | succ j1 =>
          simp only [List.getElem?_cons_succ] at hw
          exact hmin j1 (by omega) w hw

theorem findInterval_eq_none : ∀ (ints : List (Int × Int)) (t : Int),
    findInterval ints t = none → ∀ w ∈ ints, ¬(w.1 ≤ t ∧ t ≤ w.2) := by
  intro ints
  induction ints with
  | nil => intro t _ w hw; simp at hw
  | cons hd tl ih =>
    intro t h w hw
    obtain ⟨s0, e0⟩ := hd
    by_cases hc : s0 ≤ t ∧ t ≤ e0
    · rw [findInterval, if_pos hc] at h; simp at h
    · rw [findInterval, if_neg hc] at h
      rcases List.mem_cons.mp hw with h1 | h1
      · rw [h1]; exact hc
      · cases hfi : findInterval tl t with
        | none => exact ih t hfi w h1
        | some p => rw [hfi] at h; simp at h

theorem findInterval_isSome (ints : List (Int × Int)) (t : Int)
    (hex : ∃ w ∈ ints, w.1 ≤ t ∧ t ≤ w.2) : (findInterval ints t).isSome := by
  obtain ⟨w, hw, hc⟩ := hex
  cases h : findInterval ints t with
  | none => exact absurd hc (findInterval_eq_none ints t h w hw)
  | some p => simp

theorem processLeave_eq_some (valid : List String) (ints : List (Int × Int))
    (p l : Option String) (te tl : Int) (r : Traversal)
    (h : processLeave valid ints p l te tl = some r) :
    r.person = p ∧ r.link_id = l ∧ r.time_enter = te ∧
      optMem l valid = true ∧
      ∃ s e, ints[r.interval_id]? = some (s, e) ∧ s ≤ te ∧ te ≤ e ∧
        r.time_leave = (if tl > e then e else tl) ∧
        ∀ j, j < r.interval_id → ∀ w, ints[j]? = some w →
          ¬(w.1 ≤ te ∧ te ≤ w.2) := by
  unfold processLeave at h
  cases hfi : findInterval ints te with
  | none => rw [hfi] at h; simp at h
  | some q =>
    obtain ⟨idx, s0, e0⟩ := q
    rw [hfi] at h
    dsimp only at h
    by_cases hm : optMem l valid = true
    · rw [if_pos hm] at h
      obtain rfl : (⟨p, l, te, if tl > e0 then e0 else tl, idx⟩ : Traversal) = r := by
        simpa using h
      obtain ⟨hget, hs, he, hmin⟩ := findInterval_eq_some ints te idx s0 e0 hfi
      exact ⟨rfl, rfl, rfl, hm, s0, e0, hget, hs, he, rfl, hmin⟩
    · rw [if_neg hm] at h; simp at h

theorem processLeave_isSome_iff (valid : List String) (ints : List (Int × Int))
    (p l : Option String) (te tl : Int) :
    (processLeave valid ints p l te tl).isSome ↔
      ((∃ w ∈ ints, w.1 ≤ te ∧ te ≤ w.2) ∧ optMem l valid = true) := by
  constructor
  · intro h
    unfold processLeave at h
    cases hfi : findInterval ints te with
    | none => rw [hfi] at h; simp at h
    | some q =>
      obtain ⟨idx, s0, e0⟩ := q
      rw [hfi] at h
      dsimp only at h
      by_cases hm : optMem l valid = true
      · obtain ⟨hget, hs, he, _⟩ := findInterval_eq_some ints te idx s0 e0 hfi
        refine ⟨⟨(s0, e0), ?_, hs, he⟩, hm⟩
        exact List.getElem?_mem hget
      · rw [if_neg hm] at h; simp at h
  · rintro ⟨hex, hm⟩
    unfold processLeave
    cases hfi : findInterval ints te with
    | none =>
      have := findInterval_isSome ints te hex
      rw [hfi] at this; simp at this
    | some q =>
      obtain ⟨idx, s0, e0⟩ := q
      dsimp only
      rw [if_pos hm]
      simp

theorem mem_records_of_fold (valid : List String) (ints : List (Int × Int)) :
    ∀ (chunk : List Ev) (st : FState) (r : Traversal),
    r ∈ (chunk.foldl (stepEvent valid ints) st).records →
    r ∈ st.records ∨
      ∃ p l te tl, processLeave valid ints p l te tl = some r := by
  intro chunk
  induction chunk with
  | nil => intro st r h; exact Or.inl h
  | cons ev rest ih =>
    intro st r h
    rw [List.foldl_cons] at h
    rcases ih (stepEvent valid ints st ev) r h with h1 | h1
    · unfold stepEvent at h1
      cases hev : ev.time with
      | none => rw [hev] at h1; exact Or.inl h1
      | some t =>
        rw [hev] at h1
        dsimp only at h1
        by_cases h2 : ev.type = some enterLinkTag
        · rw [if_pos h2] at h1; exact Or.inl h1
        · rw [if_neg h2] at h1
          by_cases h3 : ev.type = some leaveLinkTag
          · rw [if_pos h3] at h1
            cases hfe : findEnter st.enters (ev.person, ev.link) with
            | none => rw [hfe] at h1; exact Or.inl h1
            | some tEnter =>
              rw [hfe] at h1
              simp only [List.mem_append] at h1
              rcases h1 with h1 | h1
              · exact Or.inl h1
              · cases hpl : processLeave valid ints ev.person ev.link tEnter t with
                | none => rw [hpl] at h1; simp at h1
                | some r2 =>
                  rw [hpl] at h1
                  simp only [Option.toList_some, List.mem_singleton] at h1
                  exact Or.inr ⟨ev.person, ev.link, tEnter, t, h1 ▸ hpl⟩
          · rw [if_neg h3] at h1; exact Or.inl h1
    · exact Or.inr h1

theorem mem_insertEnter {m : List (EKey × Int)} {k : EKey} {t : Int}
    {kt : EKey × Int} (h : kt ∈ insertEnter m k t) : kt = (k, t) ∨ kt ∈ m := by
  rcases List.mem_cons.mp h with h1 | h1
  · exact Or.inl h1
  · exact Or.inr (List.mem_of_mem_filter h1)

theorem findEnter_mem {m : List (EKey × Int)} {k : EKey} {t : Int}
    (h : findEnter m k = some t) : (k, t) ∈ m := by
  unfold findEnter at h
  cases hf : m.find? (fun p => decide (p.1 = k)) with
  | none => rw [hf] at h; simp at h
  | some p =>
    rw [hf] at h
    obtain rfl : p.2 = t := by simpa using h
    have h1 : p ∈ m := List.mem_of_find?_eq_some hf
    have h2 : p.1 = k := by simpa using List.find?_some hf
    have : (k, p.2) = p := by rw [← h2]
    rw [this]
    exact h1

theorem optMem_iff {l : Option String} {valid : List String} :
    optMem l valid = true ↔ ∃ s, l = some s ∧ s ∈ valid := by
  cases l with
  | none => simp [optMem]
  | some s => simp [optMem, List.elem_iff]

/-- Chronological ordering of a pair of events: whenever both carry a parsed
time, the first is no later than the second. -/
def timeOrdered (a b : Ev) : Prop :=
  ∀ ta tb, a.time = some ta → b.time = some tb → ta ≤ tb

theorem fold_mono (valid : List String) (ints : List (Int × Int)) :
    ∀ (chunk : List Ev) (st : FState),
    List.Pairwise timeOrdered chunk →
    (∀ kt ∈ st.enters, ∀ ev ∈ chunk, ∀ tb, ev.time = some tb → kt.2 ≤ tb) →
    (∀ r ∈ st.records, r.time_enter ≤ r.time_leave) →
    ∀ r ∈ (chunk.foldl (stepEvent valid ints) st).records,
      r.time_enter ≤ r.time_leave := by
  intro chunk
  induction chunk with
  | nil => intro st _ _ hrec r hr; exact hrec r hr
  | cons ev rest ih =>
    intro st hpw henters hrec r hr
    rw [List.foldl_cons] at hr
    have hpw2 := (List.pairwise_cons.mp hpw).2
    have hhead := (List.pairwise_cons.mp hpw).1
    refine ih (stepEvent valid ints st ev) hpw2 ?_ ?_ r hr
    · -- every stored enter time is below all later parsed times
      intro kt hkt ev2 hev2 tb htb
      unfold stepEvent at hkt
      cases hev : ev.time with
      | none =>
        rw [hev] at hkt
        exact henters kt hkt ev2 (List.mem_cons_of_mem ev hev2) tb htb
      | some t =>
        rw [hev] at hkt
        dsimp only at hkt
        by_cases h2 : ev.type = some enterLinkTag
        · rw [if_pos h2] at hkt
          rcases mem_insertEnter hkt with h3 | h3
          · rw [h3]
            exact hhead ev2 hev2 t tb hev htb
          · exact henters kt h3 ev2 (List.mem_cons_of_mem ev hev2) tb htb
        · rw [if_neg h2] at hkt
          by_cases h3 : ev.type = some leaveLinkTag
          · rw [if_pos h3] at hkt
            cases hfe : findEnter st.enters (ev.person, ev.link) with
            | none =>
              rw [hfe] at hkt
              exact henters kt hkt ev2 (List.mem_cons_of_mem ev hev2) tb htb
            | some tEnter =>
              rw [hfe] at hkt
              have h4 : kt ∈ st.enters := List.mem_of_mem_filter hkt
              exact henters kt h4 ev2 (List.mem_cons_of_mem ev hev2) tb htb
          · rw [if_neg h3] at hkt
            exact henters kt hkt ev2 (List.mem_cons_of_mem ev hev2) tb htb
    · -- every accumulated record still satisfies time_enter <= time_leave
      intro r2 hr2
      unfold stepEvent at hr2
      cases hev : ev.time with
      | none => rw [hev] at hr2; exact hrec r2 hr2
      | some t =>
        rw [hev] at hr2
        dsimp only at hr2
        by_cases h2 : ev.type = some enterLinkTag
        · rw [if_pos h2] at hr2; exact hrec r2 hr2
        · rw [if_neg h2] at hr2
          by_cases h3 : ev.type = some leaveLinkTag
          · rw [if_pos h3] at hr2
            cases hfe : findEnter st.enters (ev.person, ev.link) with
            | none => rw [hfe] at hr2; exact hrec r2 hr2
            | some tEnter =>
              rw [hfe] at hr2
              simp only [List.mem_append] at hr2
              rcases hr2 with hr2 | hr2
              · exact hrec r2 hr2
              · cases hpl : processLeave valid ints ev.person ev.link tEnter t with
                | none => rw [hpl] at hr2; simp at hr2
                | some r3 =>
                  rw [hpl] at hr2
                  simp only [Option.toList_some, List.mem_singleton] at hr2
                  subst hr2
                  obtain ⟨_, _, hte, _, s0, e0, _, hs, he, htl, _⟩ :=
                    processLeave_eq_some valid ints ev.person ev.link tEnter t r2 hpl
                  have hle : tEnter ≤ t :=
                    henters (_, tEnter) (findEnter_mem hfe) ev
                      (List.mem_cons_self ev rest) t hev
                  rw [hte, htl]
                  split <;> omega
          · rw [if_neg h3] at hr2; exact hrec r2 hr2

/-- The unconditional part of the emitted-record invariants, shared by the
stage-1 claims. -/
theorem emitted_record_props (valid : List String) (chunk : List Ev)
    (intervals : List (Int × Int)) (r : Traversal)
    (hr : r ∈ filterEventsChunk valid chunk intervals) :
    r.interval_id < intervals.length ∧
    (∃ s e, intervals[r.interval_id]? = some (s, e) ∧
      s ≤ r.time_enter ∧ r.time_enter ≤ e ∧ r.time_leave ≤ e) ∧
    (∃ l, r.link_id = some l ∧ l ∈ valid) := by
  unfold filterEventsChunk at hr
  rcases mem_records_of_fold valid intervals chunk ⟨[], []⟩ r hr with h1 | h1
  · simp at h1
  obtain ⟨p, l, te, tl, hpl⟩ := h1
  obtain ⟨hp, hl, hte, hm, s0, e0, hget, hs, he, htl, _⟩ :=
    processLeave_eq_some valid intervals p l te tl r hpl
  have hlen : r.interval_id < intervals.length := by
    rcases List.getElem?_eq_some.mp hget with ⟨h, _⟩
    exact h
  refine ⟨hlen, ⟨s0, e0, hget, ?_, ?_, ?_⟩, ?_⟩
  · rw [hte]; exact hs
  · rw [hte]; exact he
  · rw [htl]; split <;> omega
  · obtain ⟨s1, hs1, hm1⟩ := optMem_iff.mp hm
    exact ⟨s1, hl.trans hs1, hm1⟩

/-! ## Claim C1 -/

/-- C1 (amended): every record emitted by `filter_events_chunk` has an
`interval_id` addressing a configured window that contains `time_enter`
inclusively on both ends, has `time_leave` at most that window's end, and has
a `link_id` belonging to the valid-link set; the remaining conjunct
`time_enter ≤ time_leave` additionally requires the chunk's events to be
chronologically ordered, since the code never compares the matched LeaveLink's
time with the stored EnterLink's time. -/
theorem filterEventsChunk_invariants (valid : List String) (chunk : List Ev)
    (intervals : List (Int × Int)) (r : Traversal)
    (hr : r ∈ filterEventsChunk valid chunk intervals) :
    r.interval_id < intervals.length ∧
    (∃ s e, intervals[r.interval_id]? = some (s, e) ∧
      s ≤ r.time_enter ∧ r.time_enter ≤ e ∧ r.time_leave ≤ e) ∧
    (∃ l, r.link_id = some l ∧ l ∈ valid) ∧
    (List.Pairwise timeOrdered chunk → r.time_enter ≤ r.time_leave) := by
  obtain ⟨h1, h2, h3⟩ := emitted_record_props valid chunk intervals r hr
  refine ⟨h1, h2, h3, ?_⟩
  intro hpw
  unfold filterEventsChunk at hr
  exact fold_mono valid intervals chunk ⟨[], []⟩ hpw (by simp) (by simp) r hr

/-- C1 counterexample: on a chunk whose matched LeaveLink carries an earlier
time than its EnterLink, `filter_events_chunk` emits a record with
`time_enter > time_leave`, so the claimed invariant
`time_enter ≤ time_leave` fails as stated. -/
theorem filterEventsChunk_invariants_counterexample :
    ¬ ∀ r ∈ filterEventsChunk ["L"]
        [⟨some enterLinkTag, some "A", some "L", some 110⟩,
         ⟨some leaveLinkTag, some "A", some "L", some 50⟩] [(100, 200)],
      r.time_enter ≤ r.time_leave := by decide

/-- C1 witness: the scenario of spec §8 seed test 1 — one Enter/Leave pair
inside the single window — applied to the invariant theorem. -/
theorem filterEventsChunk_invariants_witness :
    (⟨some "A", some "L", 110, 115, 0⟩ : Traversal).interval_id <
      [((100 : Int), (200 : Int))].length := by
  have h := filterEventsChunk_invariants ["L"]
    [⟨some enterLinkTag, some "A", some "L", some 110⟩,
     ⟨some leaveLinkTag, some "A", some "L", some 115⟩] [(100, 200)]
    ⟨some "A", some "L", 110, 115, 0⟩ (by decide)
  exact h.1

/-! ## Claim C2 -/

/-- C2: on a matched pair, `filter_events_chunk` appends exactly the (at most
one) record produced by the emission decision; that decision emits a record
iff some window contains `time_enter` inclusively and the link is in the
valid set; the chosen `interval_id` is the first containing window in
configured order, and the emitted `time_leave` is `min(time_leave,
window.end)`. -/
theorem processLeave_emission (valid : List String) (ints : List (Int × Int))
    (p l : Option String) (te tl : Int) :
    ((processLeave valid ints p l te tl).isSome ↔
      ((∃ w ∈ ints, w.1 ≤ te ∧ te ≤ w.2) ∧ ∃ s, l = some s ∧ s ∈ valid)) ∧
    (∀ r, processLeave valid ints p l te tl = some r →
      r.person = p ∧ r.link_id = l ∧ r.time_enter = te ∧
      ∃ s e, ints[r.interval_id]? = some (s, e) ∧ s ≤ te ∧ te ≤ e ∧
        (∀ j, j < r.interval_id → ∀ w, ints[j]? = some w →
          ¬(w.1 ≤ te ∧ te ≤ w.2)) ∧
        r.time_leave = min tl e) ∧
    (∀ (st : FState) (ev : Ev) (t tEnter : Int), ev.time = some t →
      ev.type = some leaveLinkTag →
      findEnter st.enters (ev.person, ev.link) = some tEnter →
      (stepEvent valid ints st ev).records =
        st.records ++ (processLeave valid ints ev.person ev.link tEnter t).toList) := by
  refine ⟨?_, ?_, ?_⟩
  · rw [processLeave_isSome_iff, optMem_iff]
  · intro r h
    obtain ⟨hp, hl, hte, _, s0, e0, hget, hs, he, htl, hmin⟩ :=
      processLeave_eq_some valid ints p l te tl r h
    refine ⟨hp, hl, hte, s0, e0, hget, hs, he, hmin, ?_⟩
    rw [htl]; split <;> omega
  · intro st ev t tEnter hev htype hfe
    unfold stepEvent
    rw [hev]
    dsimp only
    rw [if_neg ?_, if_pos htype, hfe]
    rw [htype]
    simp [enterLinkTag, leaveLinkTag]

/-- C2 witness: spec §8 seed test 2 (clipping at the window end) evaluated
through the emission theorem. -/
theorem processLeave_emission_witness :
    (processLeave ["L"] [(100, 120)] (some "A") (some "L") 115 130).isSome := by
  have h := (processLeave_emission ["L"] [(100, 120)] (some "A") (some "L")
    115 130).1
  refine h.mpr ⟨⟨(100, 120), by simp, by omega, by omega⟩, "L", rfl, by simp⟩

/-! ## Claim C9 -/

theorem stepEvent_no_time {valid : List String} {ints : List (Int × Int)}
    {st : FState} {ev : Ev} (h : ev.time = none) :
    stepEvent valid ints st ev = st := by
  unfold stepEvent
  rw [h]

theorem processLeave_none_link (valid : List String) (ints : List (Int × Int))
    (p : Option String) (te tl : Int) :
    processLeave valid ints p none te tl = none := by
  unfold processLeave
  cases findInterval ints te with
  | none => rfl
  | some q =>
    obtain ⟨i, s, e⟩ := q
    simp [optMem]

/-- C9 (amended): records with a missing, empty, or non-integer `time` are
silently skipped and processing of the remaining records is unaffected;
records whose `type` is neither EnterLink nor LeaveLink are no-ops; records
missing `link` never extend the emitted records; and every emitted record
carries a link from the valid set — but records missing `person` are NOT
skipped: they are processed with a null person key and can produce emitted
records. -/
theorem malformed_events_skipped (valid : List String) (chunk : List Ev)
    (ints : List (Int × Int)) :
    filterEventsChunk valid chunk ints =
      filterEventsChunk valid (chunk.filter fun ev => ev.time.isSome) ints ∧
    (∀ (st : FState) (ev : Ev), ev.type ≠ some enterLinkTag →
      ev.type ≠ some leaveLinkTag → stepEvent valid ints st ev = st) ∧
    (∀ (st : FState) (ev : Ev), ev.link = none →
      (stepEvent valid ints st ev).records = st.records) ∧
    (∀ r ∈ filterEventsChunk valid chunk ints,
      ∃ l, r.link_id = some l ∧ l ∈ valid) := by
  refine ⟨?_, ?_, ?_, ?_⟩
  · unfold filterEventsChunk
    suffices h : ∀ (c : List Ev) (st : FState),
        c.foldl (stepEvent valid ints) st =
          (c.filter fun ev => ev.time.isSome).foldl (stepEvent valid ints) st by
      rw [h chunk ⟨[], []⟩]
    intro c
    induction c with
    | nil => intro st; rfl
    | cons ev rest ih =>
      intro st
      cases hev : ev.time with
      | none =>
        rw [List.foldl_cons, stepEvent_no_time hev, List.filter_cons]
        simp only [hev, Option.isSome_none]
        exact ih st
      | some t =>
        rw [List.foldl_cons, List.filter_cons]
        have hsome : (ev.time.isSome) = true := by rw [hev]; rfl
        rw [if_pos hsome, List.foldl_cons]
        exact ih (stepEvent valid ints st ev)
  · intro st ev h1 h2
    unfold stepEvent
    cases hev : ev.time with
    | none => rfl
    | some t =>
      dsimp only
      rw [if_neg h1, if_neg h2]
  · intro st ev hlink
    unfold stepEvent
    cases hev : ev.time with
    | none => rfl
    | some t =>
      dsimp only
      by_cases h2 : ev.type = some enterLinkTag
      · rw [if_pos h2]
      · rw [if_neg h2]
        by_cases h3 : ev.type = some leaveLinkTag
        · rw [if_pos h3]
          cases hfe : findEnter st.enters (ev.person, ev.link) with
          | none => rfl
          | some tEnter =>
            dsimp only
            rw [hlink, processLeave_none_link]
            simp
        · rw [if_neg h3]
  · intro r hr
    exact (emitted_record_props valid chunk ints r hr).2.2

/-- C9 counterexample: a matched Enter/Leave pair in which every source record
is missing `person` still produces an emitted record, so such records are not
skipped. -/
theorem malformed_events_skipped_counterexample :
    filterEventsChunk ["L"]
        [⟨some enterLinkTag, none, some "L", some 110⟩,
         ⟨some leaveLinkTag, none, some "L", some 115⟩] [(100, 200)] =
      [⟨none, some "L", 110, 115, 0⟩] ∧
    ∀ ev ∈ ([⟨some enterLinkTag, none, some "L", some 110⟩,
             ⟨some leaveLinkTag, none, some "L", some 115⟩] : List Ev),
      ev.person = none := by decide

/-- C9 witness: a chunk containing a record with unparseable `time` filters to
the same output as the chunk without it. -/
theorem malformed_events_skipped_witness :
    filterEventsChunk ["L"]
        [⟨some enterLinkTag, some "A", some "L", none⟩,
         ⟨some enterLinkTag, some "A", some "L", some 110⟩,
         ⟨some leaveLinkTag, some "A", some "L", some 115⟩] [(100, 200)] =
      filterEventsChunk ["L"]
        (([⟨some enterLinkTag, some "A", some "L", none⟩,
           ⟨some enterLinkTag, some "A", some "L", some 110⟩,
           ⟨some leaveLinkTag, some "A", some "L", some 115⟩] : List Ev).filter
          fun ev => ev.time.isSome) [(100, 200)] :=
  (malformed_events_skipped ["L"]
    [⟨some enterLinkTag, some "A", some "L", none⟩,
     ⟨some enterLinkTag, some "A", some "L", some 110⟩,
     ⟨some leaveLinkTag, some "A", some "L", some 115⟩] [(100, 200)]).1

/-! ## Claim C3 -/

/-- C3: for a traversal of positive duration Δ, `interpolate_trajectory` emits
exactly Δ+1 points; the k-th point carries timestamp `render(time_enter + k)`,
so the first carries `render(time_enter)` and the last `render(time_leave)`;
and every point of the sequence carries the bearing passed in. -/
theorem interpolateTrajectory_points (linkId : String) (te tl : Int)
    (sc ec : ℚ × ℚ) (pid : String) (fsp ll : Option ℚ) (b iid : Int)
    (h : 0 < tl - te) :
    (interpolateTrajectory linkId te tl sc ec pid fsp ll b iid).length =
      (tl - te).toNat + 1 ∧
    (∀ (k : Nat)
      (hk : k < (interpolateTrajectory linkId te tl sc ec pid fsp ll b iid).length),
      ((interpolateTrajectory linkId te tl sc ec pid fsp ll b iid).get
        ⟨k, hk⟩).timestamp = timeToTimestamp (te + (k : Int))) ∧
    (∀ p, (interpolateTrajectory linkId te tl sc ec pid fsp ll b iid).head? =
      some p → p.timestamp = timeToTimestamp te) ∧
    (∀ p, (interpolateTrajectory linkId te tl sc ec pid fsp ll b iid).getLast? =
      some p → p.timestamp = timeToTimestamp tl) ∧
    (∀ p ∈ interpolateTrajectory linkId te tl sc ec pid fsp ll b iid,
      p.angle = b) := by
  have hne : ¬(tl - te ≤ 0) := by omega
  have hcast : ((tl - te).toNat : Int) = tl - te := Int.toNat_of_nonneg (by omega)
  rw [interpolateTrajectory]
  rw [if_neg hne]
  dsimp only
  refine ⟨by simp, ?_, ?_, ?_, ?_⟩
  · intro k hk
    simp only [List.get_eq_getElem, List.getElem_map, List.getElem_range]
  · intro p hp
    rw [List.head?_map, List.range_succ_eq_map] at hp
    simp only [List.head?_cons] at hp
    dsimp only [Option.map] at hp
    obtain rfl := Option.some.inj hp
    simp
  · intro p hp
    rw [List.range_succ, List.map_append] at hp
    simp only [List.map_cons, List.map_nil, List.getLast?_concat] at hp
    obtain rfl := Option.some.inj hp
    dsimp only
    rw [hcast]
    congr 1
    omega
  · intro p hp
    rw [List.mem_map] at hp
    obtain ⟨k, _, hk⟩ := hp
    rw [← hk]

/-- C3 witness: spec §8 seed test 1 — a traversal from 110 to 115 yields six
points. -/
theorem interpolateTrajectory_points_witness :
    (interpolateTrajectory "L1" 110 115 (0, 0) (1, 1) "A" none none 90 0).length =
      5 + 1 := by
  have h := interpolateTrajectory_points "L1" 110 115 (0, 0) (1, 1) "A"
    none none 90 0 (by decide)
  simpa using h.1

/-! ## Claim C4 -/

/-- C4 (amended): a traversal with `time_enter == time_leave` produces NO
trajectory point in the stage-2 pipeline (`interpolate_trajectory` returns the
empty list for `time_delta <= 0`), while the library interpolator
`interpolate_1s` produces exactly one point for it. -/
theorem interp_zero_duration (linkId : String) (t0 : Int) (sc ec : ℚ × ℚ)
    (pid : String) (fsp ll : Option ℚ) (b iid : Int) (sc2 ec2 : ℚ × ℚ)
    (pid2 : String) (fsp2 ll2 : Option ℚ) :
    interpolateTrajectory linkId t0 t0 sc ec pid fsp ll b iid = [] ∧
    (interpolate1s linkId t0 t0 sc2 ec2 pid2 fsp2 ll2).length = 1 := by
  constructor
  · rw [interpolateTrajectory]
    rw [if_pos (by omega)]
  · unfold interpolate1s
    simp only [List.length_map, List.length_range]
    omega

/-- C4 counterexample: at a concrete zero-duration traversal the stage-2
interpolation emits zero points, not one. -/
theorem interp_zero_duration_counterexample :
    ¬ (interpolateTrajectory "L1" 100 100 (0, 0) (1, 1) "A" none none 90 0).length
      = 1 := by decide

/-! ## Claim C5 -/

/-- C5: every heatmap record emitted at timepoint t for link l counts exactly
the input rows with `time_enter ≤ t` and `time_leave > t` (half-open on the
right) and `link_id = l`. -/
theorem processTimepointBatch_counts (tps : List Int) (df : List TravRow)
    (la : List (String × HLinkAttr)) (r : HeatRec)
    (hr : r ∈ processTimepointBatch tps df la) :
    r.timepoint_seconds ∈ tps ∧
    r.vehicle_count = df.countP (fun x =>
      decide (x.time_enter ≤ r.timepoint_seconds) &&
      decide (r.timepoint_seconds < x.time_leave) &&
      decide (x.link_id = r.link_id)) := by
  unfold processTimepointBatch at hr
  rw [List.mem_flatten] at hr
  obtain ⟨lrec, hlrec, hrmem⟩ := hr
  rw [List.mem_map] at hlrec
  obtain ⟨t, ht, hlrec⟩ := hlrec
  rw [← hlrec] at hrmem
  unfold heatRecsAt at hrmem
  rw [List.mem_filterMap] at hrmem
  obtain ⟨p, hp, hfp⟩ := hrmem
  rw [List.mem_map] at hp
  obtain ⟨l0, _, hpeq⟩ := hp
  cases hla : lookupHAttr la p.1 with
  | none => rw [hla] at hfp; simp at hfp
  | some a =>
    rw [hla] at hfp
    dsimp only at hfp
    cases hc : a.center with
    | none => rw [hc] at hfp; simp at hfp
    | some c =>
      rw [hc] at hfp
      dsimp only at hfp
      obtain rfl :
          (⟨p.1, c.1, c.2, timeToTimestamp t, t, p.2⟩ : HeatRec) = r := by
        simpa using hfp
      obtain rfl : (l0,
          (df.filter fun x =>
            decide (x.time_enter ≤ t) && decide (t < x.time_leave)).countP
            fun x => decide (x.link_id = l0)) = p := hpeq
      refine ⟨ht, ?_⟩
      dsimp only
      rw [List.countP_filter]
      apply List.countP_congr
      intro x _
      simp only [Bool.and_eq_true, decide_eq_true_eq]
      tauto

/-- C5 witness: spec §8 seed test 5 — at timepoint 165 link L1 carries two
active traversals. -/
theorem processTimepointBatch_counts_witness :
    (⟨"L1", 0, 0, timeToTimestamp 165, 165, 2⟩ : HeatRec).timepoint_seconds ∈
        [(165 : Int)] ∧
    (⟨"L1", 0, 0, timeToTimestamp 165, 165, 2⟩ : HeatRec).vehicle_count =
      ([⟨"A", "L1", 100, 200, 0⟩, ⟨"B", "L1", 150, 180, 0⟩,
        ⟨"C", "L2", 160, 170, 0⟩] : List TravRow).countP (fun x =>
        decide (x.time_enter ≤
          (⟨"L1", 0, 0, timeToTimestamp 165, 165, 2⟩ : HeatRec).timepoint_seconds) &&
        decide ((⟨"L1", 0, 0, timeToTimestamp 165, 165, 2⟩ : HeatRec).timepoint_seconds <
          x.time_leave) &&
        decide (x.link_id =
          (⟨"L1", 0, 0, timeToTimestamp 165, 165, 2⟩ : HeatRec).link_id)) :=
  processTimepointBatch_counts [165]
    [⟨"A", "L1", 100, 200, 0⟩, ⟨"B", "L1", 150, 180, 0⟩,
     ⟨"C", "L2", 160, 170, 0⟩]
    [("L1", ⟨some (0, 0)⟩), ("L2", ⟨some (1, 1)⟩)]
    ⟨"L1", 0, 0, timeToTimestamp 165, 165, 2⟩ (by decide)

/-! ## Claim C7 -/

theorem isCacheValid_iff {β γ : Type} (fs : FileSys β γ) :
    isCacheValid fs = true ↔
      ∃ c, fs.cache = some c ∧ fs.source.mtime ≤ c.mtime := by
  cases hc : fs.cache with
  | none => simp [isCacheValid, hc]
  | some c => simp [isCacheValid, hc]

/-- C7: with `force_refresh` false, `load_network_cached` serves the load from
the existing cache, without rebuilding, iff the cache file exists and
`mtime(cache) ≥ mtime(source)`; in every other case it rebuilds the cache from
the authoritative source before loading; and `is_cache_valid` depends only on
the existence and mtimes of the files, never on their content. -/
theorem loadNetworkCached_mtime_policy {β γ : Type} (build : β → γ) (now : ℚ)
    (fs : FileSys β γ) :
    ((loadNetworkCached build now false fs).2.1 = false ↔
      ∃ c, fs.cache = some c ∧ fs.source.mtime ≤ c.mtime) ∧
    ((loadNetworkCached build now false fs).2.1 = false →
      loadNetworkCached build now false fs =
        (fs, false, fs.cache.map (·.content))) ∧
    ((loadNetworkCached build now false fs).2.1 = true →
      (loadNetworkCached build now false fs).2.2 =
        some (build fs.source.content)) ∧
    (∀ fs2 : FileSys β γ, fs2.source.mtime = fs.source.mtime →
      fs2.cache.map (·.mtime) = fs.cache.map (·.mtime) →
      isCacheValid fs2 = isCacheValid fs) := by
  refine ⟨?_, ?_, ?_, ?_⟩
  · by_cases hv : isCacheValid fs = true
    · rw [loadNetworkCached]
      rw [hv]
      simp only [Bool.not_true, Bool.or_false, if_neg (by simp : ¬(false : Bool) = true)]
      simpa using (isCacheValid_iff fs).mp hv
    · rw [loadNetworkCached]
      rw [Bool.not_eq_true] at hv
      rw [hv]
      simp only [Bool.not_false, Bool.false_or, if_pos rfl]
      constructor
      · intro h; simp at h
      · intro h
        have := (isCacheValid_iff fs).mpr h
        rw [hv] at this
        simp at this
  · intro h
    rw [loadNetworkCached] at h ⊢
    by_cases hv : isCacheValid fs = true
    · rw [hv] at h ⊢
      simp only [Bool.not_true, Bool.or_false,
        if_neg (by simp : ¬(false : Bool) = true)] at h ⊢
      rfl
    · rw [Bool.not_eq_true] at hv
      rw [hv] at h
      simp at h
  · intro h
    rw [loadNetworkCached] at h ⊢
    by_cases hv : isCacheValid fs = true
    · rw [hv] at h
      simp at h
    · rw [Bool.not_eq_true] at hv
      rw [hv] at h ⊢
      simp only [Bool.not_false, Bool.false_or, if_pos rfl]
      rfl
  · intro fs2 hsrc hc
    cases h2 : fs2.cache with
    | none =>
      rw [h2] at hc
      cases h1 : fs.cache with
      | none => simp [isCacheValid, h1, h2]
      | some c1 => rw [h1] at hc; simp at hc
    | some c2 =>
      rw [h2] at hc
      cases h1 : fs.cache with
      | none => rw [h1] at hc; simp at hc
      | some c1 =>
        rw [h1] at hc
        simp only [Option.map] at hc
        have hm := Option.some.inj hc
        simp [isCacheValid, h1, h2, hsrc, hm]

/-- C7 witness: a cache file stamped later than the source is served without a
rebuild. -/
theorem loadNetworkCached_mtime_policy_witness :
    (loadNetworkCached (fun b => b) 10 false
      (⟨⟨3, 0⟩, some ⟨5, 1⟩⟩ : FileSys ℚ ℚ)).2.1 = false := by
  have h := (loadNetworkCached_mtime_policy (fun (b : ℚ) => b) 10
    (⟨⟨3, 0⟩, some ⟨5, 1⟩⟩ : FileSys ℚ ℚ)).1
  exact h.mpr ⟨⟨5, 1⟩, rfl, by norm_num⟩

/-! ## Claim C6 -/

/-- C6: the travel endpoints stored by `build_link_attributes_dict` obey the
spec's selection rule: `travel_start` is whichever endpoint of the resolved
previous neighbour equals the link's own `edge_start`, with fallback to
`edge_start` when neither endpoint matches or no previous neighbour
contributes endpoints, and symmetrically for `travel_end`. -/
theorem endpointChoice_aux {α : Type} [DecidableEq α] (ecp : α)
    (pg : Option (Option (Geom α))) (v w : α)
    (hvw : (match pg with
      | none => some (ecp, ecp)
      | some g0 => neighborEndpoints g0 ecp) = some (v, w)) :
    specEndpointChoice ecp (lineEnds pg)
      (if ecp = v then v else if ecp = w then w else ecp) := by
  cases pg with
  | none =>
    have hinj := Option.some.inj hvw
    obtain ⟨h1, h2⟩ := Prod.mk.injEq .. ▸ hinj
    subst h1
    subst h2
    simp [lineEnds, specEndpointChoice]
  | some g0 =>
    cases g0 with
    | none =>
      have hvw2 : (some (ecp, ecp) : Option (α × α)) = some (v, w) := by
        simpa [neighborEndpoints] using hvw
      obtain ⟨h1, h2⟩ := Prod.mk.injEq .. ▸ Option.some.inj hvw2
      subst h1
      subst h2
      simp [lineEnds, specEndpointChoice]
    | some gg =>
      cases gg with
      | line cs =>
        cases cs with
        | nil =>
          have hvw2 : (some (ecp, ecp) : Option (α × α)) = some (v, w) := by
            simpa [neighborEndpoints] using hvw
          obtain ⟨h1, h2⟩ := Prod.mk.injEq .. ▸ Option.some.inj hvw2
          subst h1
          subst h2
          simp [lineEnds, specEndpointChoice]
        | cons c cs2 =>
          have hvw2 : (some (c, (c :: cs2).getLastD c) : Option (α × α)) =
              some (v, w) := by
            simpa [neighborEndpoints] using hvw
          obtain ⟨h1, h2⟩ := Prod.mk.injEq .. ▸ Option.some.inj hvw2
          subst h1
          subst h2
          simp only [lineEnds, specEndpointChoice]
          by_cases h3 : ecp = c
          · rw [if_pos h3]
            exact Or.inl ⟨h3.symm, rfl⟩
          · rw [if_neg h3]
            by_cases h4 : ecp = (c :: cs2).getLastD c
            · rw [if_pos h4]
              exact Or.inr (Or.inl ⟨h4.symm, rfl⟩)
            · rw [if_neg h4]
              exact Or.inr (Or.inr ⟨fun hx => h3 hx.symm, fun hx => h4 hx.symm,
                rfl⟩)
      | multi css =>
        cases css with
        | nil =>
          have hvw2 : (some (ecp, ecp) : Option (α × α)) = some (v, w) := by
            simpa [neighborEndpoints] using hvw
          obtain ⟨h1, h2⟩ := Prod.mk.injEq .. ▸ Option.some.inj hvw2
          subst h1
          subst h2
          simp [lineEnds, specEndpointChoice]
        | cons c css2 => simp [neighborEndpoints] at hvw
      | other => simp [neighborEndpoints] at hvw

/-- C6: the travel endpoints stored by `build_link_attributes_dict` obey the
spec's selection rule: `travel_start` is whichever endpoint of the resolved
previous neighbour equals the link's own `edge_start`, with fallback to
`edge_start` when neither endpoint matches or no previous neighbour
contributes endpoints, and symmetrically for `travel_end`. -/
theorem precomputeTravel_spec {α : Type} [DecidableEq α] (geom : Geom α)
    (prevGeom nextGeom : Option (Option (Geom α))) (ec1 ec2 ts te : α)
    (hec : edgeCoords geom = some (ec1, ec2))
    (h : precomputeTravel (some geom) prevGeom nextGeom = some (ts, te)) :
    specEndpointChoice ec1 (lineEnds prevGeom) ts ∧
    specEndpointChoice ec2 (lineEnds nextGeom) te := by
  unfold precomputeTravel at h
  dsimp only at h
  rw [hec] at h
  dsimp only at h
  cases hef : (match prevGeom with
      | none => some (ec1, ec1)
      | some g0 => neighborEndpoints g0 ec1) with
  | none => rw [hef] at h; simp at h
  | some efp =>
    cases het : (match nextGeom with
        | none => some (ec2, ec2)
        | some g0 => neighborEndpoints g0 ec2) with
    | none => rw [hef, het] at h; simp at h
    | some etp =>
      obtain ⟨ef1, ef2⟩ := efp
      obtain ⟨et1, et2⟩ := etp
      rw [hef, het] at h
      dsimp only at h
      have hinj := Option.some.inj h
      have hts := congrArg Prod.fst hinj
      have hte := congrArg Prod.snd hinj
      dsimp only at hts hte
      constructor
      · rw [← hts]
        exact endpointChoice_aux ec1 prevGeom ef1 ef2 hef
      · rw [← hte]
        exact endpointChoice_aux ec2 nextGeom et1 et2 het

/-- C6 witness: spec §8 seed test 6 — a previous neighbour ending exactly at
the link's edge start and a next neighbour starting exactly at its edge end
resolve to those matching endpoints. -/
theorem precomputeTravel_spec_witness :
    specEndpointChoice ((0, 0) : Int × Int)
      (lineEnds (some (some (Geom.line [(9, 9), (0, 0)])))) (0, 0) ∧
    specEndpointChoice ((1, 0) : Int × Int)
      (lineEnds (some (some (Geom.line [(1, 0), (7, 7)])))) (1, 0) :=
  precomputeTravel_spec (Geom.line [(0, 0), (1, 0)])
    (some (some (Geom.line [(9, 9), (0, 0)])))
    (some (some (Geom.line [(1, 0), (7, 7)])))
    (0, 0) (1, 0) (0, 0) (1, 0) (by decide) (by decide)

/-! ## Claim C10 -/

/-- C10 (amended): `get_travel_endpoints`, whenever it returns at all, never
returns a pair in which BOTH components are `None` — the second
direction-determination block always assigns one of them — but it CAN return
`None` for a single component (see the counterexample), so the claim that
neither component is ever `None` fails. -/
theorem getTravelEndpoints_not_both_none {α : Type} [DecidableEq α]
    (linkId : String) (attrs : List (String × AnimAttr α))
    (ts te : Option α)
    (h : getTravelEndpoints linkId attrs = some (ts, te)) :
    ts.isSome ∨ te.isSome := by
  unfold getTravelEndpoints at h
  cases hl : lookupAAttr attrs linkId with
  | none => rw [hl] at h; simp at h
  | some a =>
    rw [hl] at h
    dsimp only at h
    cases hg : a.geometry with
    | none => rw [hg] at h; simp at h
    | some g =>
      rw [hg] at h
      dsimp only at h
      cases hec : edgeCoords g with
      | none => rw [hec] at h; simp at h
      | some pr =>
        obtain ⟨ec1, ec2⟩ := pr
        rw [hec] at h
        dsimp only at h
        set ef := getEdgeCoords (getNeighboringLinks a.fromNode a.toNode attrs).1
          attrs ec1 with hef
        set et := getEdgeCoords (getNeighboringLinks a.fromNode a.toNode attrs).2
          attrs ec2 with het
        by_cases h1 : ec2 = ef.1 ∨ ec2 = ef.2
        · rw [if_pos h1] at h
          obtain ⟨rfl, -⟩ :
              (some (if ec2 = ef.1 then ef.1 else ef.2) : Option α) = ts ∧ _ = te := by
            have := Option.some.inj h
            exact ⟨congrArg Prod.fst this, congrArg Prod.snd this⟩
          exact Or.inl (by simp)
        · rw [if_neg h1] at h
          by_cases h2 : ec2 = et.1 ∨ ec2 = et.2
          · rw [if_pos h2] at h
            obtain ⟨-, rfl⟩ : _ = ts ∧
                (some (if ec2 = et.1 then et.1 else et.2) : Option α) = te := by
              have := Option.some.inj h
              exact ⟨congrArg Prod.fst this, congrArg Prod.snd this⟩
            exact Or.inr (by simp)
          · rw [if_neg h2] at h
            obtain ⟨-, rfl⟩ : _ = ts ∧ (some ec2 : Option α) = te := by
              have := Option.some.inj h
              exact ⟨congrArg Prod.fst this, congrArg Prod.snd this⟩
            exact Or.inr (by simp)

/-- C10 counterexample: a configuration (previous neighbour geometrically
detached, next neighbour sharing the link's edge START) in which
`get_travel_endpoints` returns `travel_start = None`. -/
theorem getTravelEndpoints_counterexample :
    getTravelEndpoints "L"
      ([("L", ⟨some "N1", some "N2", some (Geom.line [(0, 0), (1, 0)])⟩),
        ("P", ⟨some "X", some "N1", some (Geom.line [(5, 5), (6, 6)])⟩),
        ("N", ⟨some "N2", some "Y", some (Geom.line [(0, 0), (9, 9)])⟩)] :
        List (String × AnimAttr (Int × Int))) =
      some (none, some (1, 0)) := by decide

/-- C10 witness: an isolated link (no neighbours) resolves both endpoints to
its own edge coordinates; applied through the not-both-`None` theorem. -/
theorem getTravelEndpoints_not_both_none_witness :
    (some ((0, 0) : Int × Int)).isSome ∨ (some ((1, 0) : Int × Int)).isSome :=
  getTravelEndpoints_not_both_none "L"
    ([("L", ⟨some "N1", some "N2", some (Geom.line [(0, 0), (1, 0)])⟩)] :
      List (String × AnimAttr (Int × Int)))
    (some (0, 0)) (some (1, 0)) (by decide)

/-! ## Claim C8 -/

theorem fmod_bounds (a : ℝ) : 0 ≤ fmod a 360 ∧ fmod a 360 < 360 := by
  unfold fmod
  have hq : 360 * (a / 360) = a := by field_simp
  have h1 := Int.floor_le (a / 360)
  have h2 := Int.lt_floor_add_one (a / 360)
  constructor
  · linarith
  · linarith

/-- C8 (amended): every bearing computed by `cal_arith_angle` is an integer
`b` with `0 ≤ b ≤ 360` — the rounded spherical forward azimuth taken on the
coordinate pairs in `(latitude, longitude)` order.  The upper bound 360 is
attained (see the counterexample), so the claimed range `0 ≤ b ≤ 359` fails:
the code rounds the normalised azimuth without wrapping 360 back to 0. -/
theorem round_fmod_bounds (a : ℝ) :
    0 ≤ round (fmod a 360) ∧ round (fmod a 360) ≤ 360 := by
  obtain ⟨hlo, hhi⟩ := fmod_bounds a
  rw [round_eq]
  constructor
  · exact Int.floor_nonneg.mpr (by linarith)
  · have h4 : ⌊fmod a 360 + 1 / 2⌋ < 361 :=
      Int.floor_lt.mpr (by push_cast; linarith)
    omega

theorem calArithAngle_range (startCoords endCoords : ℝ × ℝ) :
    0 ≤ calArithAngle startCoords endCoords ∧
      calArithAngle startCoords endCoords ≤ 360 := by
  unfold calArithAngle
  dsimp only
  exact round_fmod_bounds _

/-- C8 counterexample: the bearing from `(0, 0)` to `(45, -1/100)` — an
azimuth a hundredth of a degree west of due north — is computed as 360, not a
value in `0..359`. -/
theorem calArithAngle_counterexample :
    calArithAngle ((0 : ℝ), 0) ((45 : ℝ), -1 / 100) = 360 ∧
    ¬ calArithAngle ((0 : ℝ), 0) ((45 : ℝ), -1 / 100) ≤ 359 := by
  have hpi := Real.pi_pos
  have heq : calArithAngle ((0 : ℝ), 0) ((45 : ℝ), -1 / 100) = 360 := by
    unfold calArithAngle
    dsimp only
    have h0 : radians 0 = 0 := by unfold radians; ring
    have h45 : radians 45 = Real.pi / 4 := by unfold radians; ring
    have hm : radians (-1 / 100) = -(Real.pi / 18000) := by unfold radians; ring
    rw [h0, h45, hm]
    simp only [Real.sin_zero, Real.cos_zero, sub_zero, one_mul, zero_mul]
    -- the denominator of atan2 is sin(pi/4) > 0
    have hy : (0 : ℝ) < Real.sin (Real.pi / 4) := by
      apply Real.sin_pos_of_pos_of_lt_pi
      · linarith
      · linarith
    have hx : Real.cos (Real.pi / 4) * Real.sin (-(Real.pi / 18000)) /
        Real.sin (Real.pi / 4) = Real.sin (-(Real.pi / 18000)) := by
      rw [Real.cos_pi_div_four, Real.sin_pi_div_four]
      have hne : (Real.sqrt 2 / 2 : ℝ) ≠ 0 := by positivity
      exact mul_div_cancel_left₀ _ hne
    have hatan : atan2
        (Real.cos (Real.pi / 4) * Real.sin (-(Real.pi / 18000)))
        (Real.sin (Real.pi / 4)) =
        Real.arctan (Real.sin (-(Real.pi / 18000))) := by
      unfold atan2
      rw [if_pos hy, hx]
    rw [hatan, Real.sin_neg, Real.arctan_neg]
    -- bounds on a = arctan (sin (pi/18000))
    set a := Real.arctan (Real.sin (Real.pi / 18000)) with ha
    have hsinpos : 0 < Real.sin (Real.pi / 18000) := by
      apply Real.sin_pos_of_pos_of_lt_pi
      · positivity
      · nlinarith
    have hapos : 0 < a := by
      rw [ha, ← Real.arctan_zero]
      exact Real.arctan_strictMono hsinpos
    have hsinlt : Real.sin (Real.pi / 18000) < Real.pi / 360 := by
      have h1 : Real.sin (Real.pi / 18000) < Real.pi / 18000 :=
        Real.sin_lt (by positivity)
      nlinarith
    have htan : Real.pi / 360 < Real.tan (Real.pi / 360) := by
      apply Real.lt_tan
      · positivity
      · nlinarith
    have halt : a < Real.pi / 360 := by
      have h1 : a < Real.arctan (Real.tan (Real.pi / 360)) :=
        Real.arctan_strictMono (by linarith)
      rwa [Real.arctan_tan (by nlinarith) (by nlinarith)] at h1
    -- the normalised degree value lies in (359.5, 360)
    have hneg : -a * 180 / Real.pi = -(a * 180 / Real.pi) := by ring
    have hdeg1 : -a * 180 / Real.pi + 360 < 360 := by
      have : 0 < a * 180 / Real.pi := by positivity
      linarith
    have hdeg2 : (719 / 2 : ℝ) < -a * 180 / Real.pi + 360 := by
      have h1 : a * 180 / Real.pi < 1 / 2 := by
        rw [div_lt_iff₀ hpi]
        nlinarith
      linarith
    have hfloor : ⌊(-a * 180 / Real.pi + 360) / 360⌋ = 0 := by
      rw [Int.floor_eq_zero_iff]
      constructor
      · have : (0 : ℝ) < -a * 180 / Real.pi + 360 := by linarith
        positivity
      · rw [div_lt_one (by norm_num : (0 : ℝ) < 360)]
        exact hdeg1
    have hfmod : fmod (-a * 180 / Real.pi + 360) 360 =
        -a * 180 / Real.pi + 360 := by
      unfold fmod
      rw [hfloor]
      push_cast
      ring
    rw [hfmod, round_eq]
    have : ⌊(-a * 180 / Real.pi + 360) + 1 / 2⌋ = 360 := by
      rw [Int.floor_eq_iff]
      constructor
      · push_cast; linarith
      · push_cast; linarith
    exact this
  exact ⟨heq, by rw [heq]; omega⟩

end TrafficSim
